import Mathlib

/-!
Verification of the bfc-asm Brainfuck-to-assembly generator.

The embedding mirrors the two source files:
* `src/code.rs`: the `Code` enum, its `Display` impl (`Code.toChar`) and its
  `TryFrom<char>` impl (`Code.tryFrom`).
* `src/main.rs`: `read_code` (byte filtering) and `compile` (assembly text
  generation).  `compile` writes lines to the output file as it goes; we model
  the written lines explicitly, so that on an error the lines written before
  the abort are still visible.  Each written line is modelled as a `Line`
  (fixed text, a loop label definition, or a conditional jump), and
  `Line.render` produces the exact text the program writes.
-/

namespace BfcAsm

/-- The eight Brainfuck instruction codes (`enum Code` in `src/code.rs`). -/
inductive Code where
  | MemInc
  | MemDec
  | PtrInc
  | PtrDec
  | SysWrite
  | SysRead
  | LoopStart
  | LoopEnd
deriving DecidableEq

/-- The `Display` impl in `src/code.rs`: the character of each variant. -/
def Code.toChar : Code → Char
  | .MemInc => '+'
  | .MemDec => '-'
  | .PtrInc => '>'
  | .PtrDec => '<'
  | .SysWrite => '.'
  | .SysRead => ','
  | .LoopStart => '['
  | .LoopEnd => ']'

/-- The `TryFrom<char>` impl in `src/code.rs`: the eight valid characters map
to their variants, every other character is rejected (`Err(())`, modelled as
`none`). -/
def Code.tryFrom (c : Char) : Option Code :=
  if c = '+' then some .MemInc
  else if c = '-' then some .MemDec
  else if c = '>' then some .PtrInc
  else if c = '<' then some .PtrDec
  else if c = '.' then some .SysWrite
  else if c = ',' then some .SysRead
  else if c = '[' then some .LoopStart
  else if c = ']' then some .LoopEnd
  else none

/-- `read_code` in `src/main.rs`: for each byte of the input file (in order),
convert it with `char::from` and keep it when `Code::try_from` succeeds; every
other byte is silently discarded. -/
def read_code (bytes : List Nat) : List Code :=
  bytes.filterMap (fun b => Code.tryFrom (Char.ofNat b))

/-- One line written by `compile`: fixed text, a loop label definition
(`label_<n>:`), or a conditional jump to a loop label (`  jne label_<n>`). -/
inductive Line where
  | raw (s : String)
  | labelDef (n : Nat)
  | jne (n : Nat)
deriving DecidableEq

/-- The exact text of one written line. -/
def Line.render : Line → String
  | .raw s => s
  | .labelDef n => s!"label_{n}:"
  | .jne n => s!"  jne label_{n}"

/-- The ten lines written for `Code::SysWrite` in `compile`
(reproduced verbatim, including the missing comma of the `ebx` line). -/
def sysWriteLines : List Line :=
  [ .raw "  mov tape_ptr, eax"
  , .raw "  mov eax, [tape_ptr]"
  , .raw "  mov ebx [tape_ptr+4]"
  , .raw "  mov ecx, [tape_ptr+8]"
  , .raw "  mov edx, [tape_ptr+12]"
  , .raw "  mov esi, [tape_ptr+16]"
  , .raw "  mov edi, [tape_ptr+20]"
  , .raw "  int 0x80"
  , .raw "  mov [tape_ptr], eax"
  , .raw "  mov eax, tape_ptr" ]

/-- The message of the `io::Error` raised on a `]` with no matching `[`. -/
def underflowMsg : String := "Compile error: Found a `]` code without a matching `[`"

/-- The message of the `io::Error` raised when loop starts remain unclosed at
end of input.  In the source this is a plain string literal, not a `format!`
call, so the `\x7b\x7d` placeholder is part of the message text and no count
is ever substituted into it. -/
def eofMsg : String := "Compile error: Reached end of file with \x7b\x7d `[` code(s) unclosed"

/-- The mutable state of `compile`'s main loop: the lines written so far and
the two counters `loop_open` and `loop_close`. -/
structure CompState where
  lines : List Line
  loopOpen : Nat
  loopClose : Nat
deriving DecidableEq

/-- One iteration of `compile`'s `for code in codes` loop.  `Code::LoopEnd`
first increments `loop_close` and fails (writing nothing) when the new value
exceeds `loop_open`. -/
def step (st : CompState) (c : Code) : Except String CompState :=
  match c with
  | .MemInc => .ok { st with lines := st.lines ++ [.raw "  inc BYTE [EAX]"] }
  | .MemDec => .ok { st with lines := st.lines ++ [.raw "  dec BYTE [EAX]"] }
  | .PtrInc => .ok { st with lines := st.lines ++ [.raw "  inc EAX"] }
  | .PtrDec => .ok { st with lines := st.lines ++ [.raw "  dec EAX"] }
  | .SysWrite => .ok { st with lines := st.lines ++ sysWriteLines }
  | .SysRead => .ok { st with lines := st.lines ++ [.raw "  mov [eax], [[eax]]"] }
  | .LoopStart =>
      .ok { st with loopOpen := st.loopOpen + 1
                  , lines := st.lines ++ [.labelDef (st.loopOpen + 1)] }
  | .LoopEnd =>
      if st.loopOpen < st.loopClose + 1 then
        .error underflowMsg
      else
        .ok { st with loopClose := st.loopClose + 1
                    , lines := st.lines ++ [.jne (st.loopClose + 1)] }

/-- Runs `compile`'s loop over the instruction list.  On an error the loop
aborts at once: the state written so far is returned together with the error
message, and no later instruction is processed. -/
def runCodes : List Code → CompState → CompState × Option String
  | [], st => (st, none)
  | c :: cs, st =>
      match step st c with
      | .ok st' => runCodes cs st'
      | .error e => (st, some e)

/-- The state right after `compile`'s prologue: the `.bss` section reserving
one pointer cell and `tape_size` bytes, and the entry point initializing `EAX`
to `tape + tape_size / 2`; both counters are `0`. -/
def initState (tapeSize : Nat) : CompState :=
  { lines :=
      [ .raw "section .bss"
      , .raw "  tape_ptr RESQ 1"
      , .raw s!"  tape RESB {tapeSize}"
      , .raw "section .text"
      , .raw "  global _start"
      , .raw "_start:"
      , .raw s!"  mov EAX, tape+{tapeSize / 2}" ]
  , loopOpen := 0
  , loopClose := 0 }

/-- `compile` in `src/main.rs`: the written lines, paired with the error
message when compilation fails (`none` on success).  After the loop, if
`loop_open > loop_close` the unclosed-loop error is raised. -/
def compile (codes : List Code) (tapeSize : Nat) : List Line × Option String :=
  match runCodes codes (initState tapeSize) with
  | (st, some e) => (st.lines, some e)
  | (st, none) =>
      if st.loopClose < st.loopOpen then (st.lines, some eofMsg)
      else (st.lines, none)

/-- Number of `LoopStart` codes in a list. -/
def opens (l : List Code) : Nat := l.countP (fun c => decide (c = Code.LoopStart))

/-- Number of `LoopEnd` codes in a list. -/
def closes (l : List Code) : Nat := l.countP (fun c => decide (c = Code.LoopEnd))

/-- The numbers of the loop label definitions among a list of written lines,
in the order they were written. -/
def labelNums (lines : List Line) : List Nat :=
  lines.filterMap (fun x => match x with | .labelDef n => some n | _ => none)

theorem opens_cons (c : Code) (l : List Code) :
    opens (c :: l) = opens l + (if c = Code.LoopStart then 1 else 0) := by
  simp [opens, List.countP_cons]

theorem closes_cons (c : Code) (l : List Code) :
    closes (c :: l) = closes l + (if c = Code.LoopEnd then 1 else 0) := by
  simp [closes, List.countP_cons]

theorem labelNums_append (l₁ l₂ : List Line) :
    labelNums (l₁ ++ l₂) = labelNums l₁ ++ labelNums l₂ := by
  simp [labelNums, List.filterMap_append]

/-- What one successful loop iteration does to the state: the counters move by
the contribution of the processed code, lines are only appended, exactly the
loop starts append a (fresh) label definition, and a successful loop end
requires `loop_close + 1 ≤ loop_open`. -/
theorem step_ok_spec {st st' : CompState} {c : Code}
    (h : step st c = Except.ok st') :
    st'.loopOpen = st.loopOpen + (if c = Code.LoopStart then 1 else 0) ∧
    st'.loopClose = st.loopClose + (if c = Code.LoopEnd then 1 else 0) ∧
    (∃ x, st'.lines = st.lines ++ x) ∧
    labelNums st'.lines =
      labelNums st.lines ++ (if c = Code.LoopStart then [st.loopOpen + 1] else []) ∧
    (c = Code.LoopEnd → st.loopClose + 1 ≤ st.loopOpen) := by
  cases c <;> simp only [step] at h
  case LoopEnd =>
    split at h
    · cases h
    · cases h
      refine ⟨by simp, by simp, ⟨_, rfl⟩, ?_, fun _ => by omega⟩
      simp [labelNums_append, labelNums]
  all_goals
    cases h
    refine ⟨by simp, by simp, ⟨_, rfl⟩, ?_, by simp⟩
    simp [labelNums_append, labelNums, sysWriteLines]

/-- The loop aborts only on a loop end whose increment of `loop_close` would
exceed `loop_open`, and the error is the underflow error. -/
theorem step_error_spec {st : CompState} {c : Code} {e : String}
    (h : step st c = Except.error e) :
    c = Code.LoopEnd ∧ st.loopOpen < st.loopClose + 1 ∧ e = underflowMsg := by
  cases c <;> simp only [step] at h
  case LoopEnd =>
    split at h
    · cases h
      exact ⟨rfl, by assumption, rfl⟩
    · cases h
  all_goals cases h

theorem run_append_err {l₁ : List Code} {st st₁ : CompState} {e : String} (l₂ : List Code)
    (h : runCodes l₁ st = (st₁, some e)) :
    runCodes (l₁ ++ l₂) st = (st₁, some e) := by
  induction l₁ generalizing st with
  | nil => simp [runCodes] at h
  | cons c cs ih =>
      cases hs : step st c with
      | ok st' =>
          have h' : runCodes cs st' = (st₁, some e) := by simpa [runCodes, hs] using h
          simpa [runCodes, hs] using ih h'
      | error e' =>
          have h' : (st, some e') = (st₁, some e) := by simpa [runCodes, hs] using h
          simpa [runCodes, hs] using h'

theorem run_append_ok {l₁ : List Code} {st st₁ : CompState} (l₂ : List Code)
    (h : runCodes l₁ st = (st₁, none)) :
    runCodes (l₁ ++ l₂) st = runCodes l₂ st₁ := by
  induction l₁ generalizing st with
  | nil =>
      simp [runCodes] at h
      simp [h]
  | cons c cs ih =>
      cases hs : step st c with
      | ok st' =>
          have h' : runCodes cs st' = (st₁, none) := by simpa [runCodes, hs] using h
          simpa [runCodes, hs] using ih h'
      | error e' => simp [runCodes, hs] at h

/-- Whatever happens, the state returned by the loop has all previously
written lines as a prefix: output is only ever appended. -/
theorem run_lines_mono (l : List Code) (st : CompState) :
    ∃ t, (runCodes l st).1.lines = st.lines ++ t := by
  induction l generalizing st with
  | nil => exact ⟨[], by simp [runCodes]⟩
  | cons c cs ih =>
      cases hs : step st c with
      | ok st' =>
          obtain ⟨x, hx⟩ := (step_ok_spec hs).2.2.1
          obtain ⟨t, ht⟩ := ih st'
          exact ⟨x ++ t, by simp [runCodes, hs, ht, hx]⟩
      | error e => exact ⟨[], by simp [runCodes, hs]⟩

/-- On success the final counters are the initial ones plus the number of
loop starts / loop ends in the processed list. -/
theorem run_ok_counts : ∀ (l : List Code) (st st' : CompState),
    runCodes l st = (st', none) →
    st'.loopOpen = st.loopOpen + opens l ∧ st'.loopClose = st.loopClose + closes l := by
  intro l
  induction l with
  | nil =>
      intro st st' h
      simp [runCodes] at h
      subst h
      simp [opens, closes]
  | cons c cs ih =>
      intro st st' h
      cases hs : step st c with
      | ok stm =>
          have h' : runCodes cs stm = (st', none) := by simpa [runCodes, hs] using h
          obtain ⟨iho, ihc⟩ := ih stm st' h'
          obtain ⟨ho, hc, -, -, -⟩ := step_ok_spec hs
          rw [iho, ihc, ho, hc, opens_cons, closes_cons]
          omega
      | error e => simp [runCodes, hs] at h

/-- If along every processed position the running loop-end count stays at or
below the running loop-start count, the loop finishes without an error. -/
theorem run_ok_of_take : ∀ (l : List Code) (st : CompState),
    (∀ n, n ≤ l.length →
      st.loopClose + closes (l.take n) ≤ st.loopOpen + opens (l.take n)) →
    (runCodes l st).2 = none := by
  intro l
  induction l with
  | nil => intro st _; rfl
  | cons c cs ih =>
      intro st h
      have hc1 : st.loopClose + closes [c] ≤ st.loopOpen + opens [c] := by
        simpa using h 1 (by simp)
      cases hs : step st c with
      | error e =>
          obtain ⟨hc, hlt, -⟩ := step_error_spec hs
          subst hc
          rw [closes_cons, opens_cons] at hc1
          simp [opens, closes] at hc1
          omega
      | ok st' =>
          have hrw : runCodes (c :: cs) st = runCodes cs st' := by simp [runCodes, hs]
          rw [hrw]
          apply ih
          intro n hn
          have hstep := h (n + 1) (by simpa using hn)
          rw [List.take_succ_cons, closes_cons, opens_cons] at hstep
          obtain ⟨ho, hcl, -, -, -⟩ := step_ok_spec hs
          rw [ho, hcl]
          omega

/-- If at some position the running loop-end count exceeds the running
loop-start count, the loop aborts with the underflow error. -/
theorem run_err_of_take : ∀ (l : List Code) (st : CompState),
    st.loopClose ≤ st.loopOpen →
    (∃ n, n ≤ l.length ∧
      st.loopOpen + opens (l.take n) < st.loopClose + closes (l.take n)) →
    (runCodes l st).2 = some underflowMsg := by
  intro l
  induction l with
  | nil =>
      rintro st hle ⟨n, -, hbad⟩
      simp [opens, closes] at hbad
      omega
  | cons c cs ih =>
      rintro st hle ⟨n, hn, hbad⟩
      cases hs : step st c with
      | error e =>
          obtain ⟨-, -, he⟩ := step_error_spec hs
          subst he
          simp [runCodes, hs]
      | ok st' =>
          have hrw : runCodes (c :: cs) st = runCodes cs st' := by simp [runCodes, hs]
          rw [hrw]
          obtain ⟨ho, hcl, -, -, hend⟩ := step_ok_spec hs
          have hle' : st'.loopClose ≤ st'.loopOpen := by
            by_cases hc : c = Code.LoopEnd
            · have := hend hc
              subst hc
              simp at ho hcl
              omega
            · by_cases hc' : c = Code.LoopStart <;> simp [hc, hc'] at ho hcl <;> omega
          apply ih st' hle'
          cases n with
          | zero =>
              simp [opens, closes] at hbad
              omega
          | succ m =>
              refine ⟨m, by simpa using hn, ?_⟩
              rw [List.take_succ_cons, closes_cons, opens_cons] at hbad
              rw [ho, hcl]
              omega

/-- On success the label definitions written by the loop carry exactly the
consecutive numbers following the initial `loop_open` counter. -/
theorem run_ok_labelNums : ∀ (l : List Code) (st st' : CompState),
    runCodes l st = (st', none) →
    labelNums st'.lines = labelNums st.lines ++ List.range' (st.loopOpen + 1) (opens l) := by
  intro l
  induction l with
  | nil =>
      intro st st' h
      simp [runCodes] at h
      subst h
      simp [opens]
  | cons c cs ih =>
      intro st st' h
      cases hs : step st c with
      | ok stm =>
          have h' : runCodes cs stm = (st', none) := by simpa [runCodes, hs] using h
          have ihl := ih stm st' h'
          obtain ⟨ho, -, -, hlab, -⟩ := step_ok_spec hs
          rw [ihl, hlab, ho, opens_cons]
          by_cases hc : c = Code.LoopStart
          · simp [hc, List.range'_succ, List.append_assoc]
          · simp [hc]
      | error e => simp [runCodes, hs] at h

/-- The lines `compile` leaves in the output file are the lines of the final
loop state, error or not. -/
theorem compile_fst (codes : List Code) (ts : Nat) :
    (compile codes ts).1 = (runCodes codes (initState ts)).1.lines := by
  unfold compile
  rcases runCodes codes (initState ts) with ⟨st, err⟩
  cases err with
  | none =>
      simp only
      split <;> rfl
  | some e => rfl

/-- Characterization of a successful `compile` run. -/
theorem compile_ok_run {codes : List Code} {ts : Nat}
    (h : (compile codes ts).2 = none) :
    ∃ st, runCodes codes (initState ts) = (st, none) ∧
      (compile codes ts).1 = st.lines ∧ st.loopOpen ≤ st.loopClose := by
  rcases hrun : runCodes codes (initState ts) with ⟨st, err⟩
  unfold compile at h ⊢
  rw [hrun] at h ⊢
  cases err with
  | some e => simp at h
  | none =>
      refine ⟨st, rfl, ?_, ?_⟩
      · simp only
        split <;> rfl
      · by_contra hlt
        simp only at h
        rw [if_pos (by omega)] at h
        simp at h

/-- Balanced input (equal totals, no prefix with an excess of loop ends)
compiles without an error. -/
theorem compile_ok_of_balanced (codes : List Code) (ts : Nat)
    (hbal : opens codes = closes codes)
    (hpre : ∀ n, n ≤ codes.length → closes (codes.take n) ≤ opens (codes.take n)) :
    (compile codes ts).2 = none := by
  have hok : (runCodes codes (initState ts)).2 = none := by
    apply run_ok_of_take
    intro n hn
    have := hpre n hn
    simp only [initState]
    omega
  rcases hrun : runCodes codes (initState ts) with ⟨st, err⟩
  rw [hrun] at hok
  simp at hok
  subst hok
  obtain ⟨ho, hc⟩ := run_ok_counts codes (initState ts) st hrun
  unfold compile
  rw [hrun]
  simp only
  rw [if_neg (by simp [initState] at ho hc; omega)]

/-- Claim C1: for `[[-]+]` the claim demands uncrossed label pairing (inner
loop-end jumps to the inner loop-start's label).  Evaluating `compile` on
`[[-]+]` shows the code emits `jne label_1` for the inner loop-end — the
label opened by the OUTER loop-start — and `jne label_2` for the outer one:
the pairing is crossed, because `loop_close` is an independently incremented
counter rather than the popped frame of a stack. -/
theorem compile_nested_crossed :
    (compile [Code.LoopStart, Code.LoopStart, Code.MemDec, Code.LoopEnd,
              Code.MemInc, Code.LoopEnd] 1024).1.map Line.render =
      [ "section .bss", "  tape_ptr RESQ 1", "  tape RESB 1024", "section .text",
        "  global _start", "_start:", "  mov EAX, tape+512",
        "label_1:", "label_2:", "  dec BYTE [EAX]", "  jne label_1",
        "  inc BYTE [EAX]", "  jne label_2" ] ∧
    (compile [Code.LoopStart, Code.LoopStart, Code.MemDec, Code.LoopEnd,
              Code.MemInc, Code.LoopEnd] 1024).2 = none := by
  exact ⟨rfl, rfl⟩

/-- Claim C2: on input `[` compilation fails with the unclosed-loop error,
but the message is a plain string literal whose `\x7b\x7d` placeholder was
never substituted: it contains no digit at all, hence does not name the
count of unclosed loop-starts. -/
theorem compile_unclosed_message :
    (compile [Code.LoopStart] 1024).2 = some eofMsg ∧
    eofMsg = "Compile error: Reached end of file with \x7b\x7d `[` code(s) unclosed" ∧
    eofMsg.toList.all (fun c => !c.isDigit) = true := by
  exact ⟨rfl, rfl, by decide⟩

set_option maxRecDepth 4000 in
/-- Claim C3: a byte maps to an instruction iff it is one of the eight
characters `+-><.,[]`; `read_code` keeps only successfully mapped bytes in
input order (it distributes over append), its output is never longer than
its input, and every produced instruction comes from some input byte. -/
theorem read_code_spec :
    (∀ b : Nat, b < 256 →
      ((Code.tryFrom (Char.ofNat b)).isSome = true ↔
        b ∈ (['+', '-', '>', '<', '.', ',', '[', ']'].map Char.toNat))) ∧
    (∀ bytes : List Nat, (read_code bytes).length ≤ bytes.length) ∧
    (∀ bytes : List Nat, ∀ code : Code, code ∈ read_code bytes →
      ∃ b, b ∈ bytes ∧ Code.tryFrom (Char.ofNat b) = some code) ∧
    (∀ bytes extra : List Nat,
      read_code (bytes ++ extra) = read_code bytes ++ read_code extra) := by
  refine ⟨by decide, ?_, ?_, ?_⟩
  · intro bytes
    exact List.length_filterMap_le _ _
  · intro bytes code hc
    simp only [read_code, List.mem_filterMap] at hc
    exact hc
  · intro bytes extra
    simp [read_code]

theorem read_code_spec_witness :
    (Code.tryFrom (Char.ofNat 43)).isSome = true ∧ (read_code [43, 99]).length ≤ 2 :=
  ⟨(read_code_spec.1 43 (by decide)).mpr (by decide), read_code_spec.2.1 [43, 99]⟩

/-- Claim C4: whenever some prefix of the input has more loop-ends than
loop-starts, `compile` fails with the underflow error; moreover once the loop
has aborted on a prefix, the instructions after it are never processed: the
result on the whole input equals the result on that prefix. -/
theorem compile_underflow (codes : List Code) (ts : Nat)
    (h : ∃ n, n ≤ codes.length ∧ opens (codes.take n) < closes (codes.take n)) :
    (compile codes ts).2 = some underflowMsg ∧
    ∀ p rest, codes = p ++ rest → (runCodes p (initState ts)).2.isSome = true →
      compile codes ts = compile p ts := by
  constructor
  · have herr : (runCodes codes (initState ts)).2 = some underflowMsg := by
      apply run_err_of_take codes (initState ts) (by simp [initState])
      obtain ⟨n, hn, hlt⟩ := h
      refine ⟨n, hn, ?_⟩
      simp only [initState]
      omega
    rcases hrun : runCodes codes (initState ts) with ⟨st, err⟩
    rw [hrun] at herr
    simp at herr
    subst herr
    unfold compile
    rw [hrun]
  · intro p rest hsplit hp
    subst hsplit
    rcases hrunp : runCodes p (initState ts) with ⟨st1, err1⟩
    cases err1 with
    | none => rw [hrunp] at hp; simp at hp
    | some e =>
        unfold compile
        rw [run_append_err rest hrunp, hrunp]

theorem compile_underflow_witness :
    (compile [Code.LoopEnd] 1024).2 = some underflowMsg :=
  (compile_underflow [Code.LoopEnd] 1024 ⟨1, by decide, by decide⟩).1

/-- Claim C5: an input with equally many loop-starts and loop-ends, in which
no prefix has an excess of loop-ends, compiles successfully (neither the
underflow nor the end-of-file structural error is raised), and at the end the
loop bookkeeping is balanced: the `loop_open` counter equals the `loop_close`
counter, i.e. every opened loop has been closed. -/
theorem compile_balanced (codes : List Code) (ts : Nat)
    (hbal : opens codes = closes codes)
    (hpre : ∀ n, n ≤ codes.length → closes (codes.take n) ≤ opens (codes.take n)) :
    (compile codes ts).2 = none ∧
    (runCodes codes (initState ts)).1.loopOpen =
      (runCodes codes (initState ts)).1.loopClose := by
  have hok := compile_ok_of_balanced codes ts hbal hpre
  refine ⟨hok, ?_⟩
  obtain ⟨st, hrun, -, -⟩ := compile_ok_run hok
  obtain ⟨ho, hc⟩ := run_ok_counts codes (initState ts) st hrun
  rw [hrun]
  show st.loopOpen = st.loopClose
  simp [initState] at ho hc
  omega

theorem compile_balanced_witness :
    (compile [Code.LoopStart, Code.MemDec, Code.LoopEnd] 7).2 = none :=
  (compile_balanced [Code.LoopStart, Code.MemDec, Code.LoopEnd] 7
    (by decide) (by decide)).1

/-- Claim C6: every compile output begins with the fixed prologue — the
`.bss` section reserving one `RESQ` pointer cell and exactly `tape_size`
bytes for the tape, and the entry point initializing the working register to
`tape + tape_size / 2`; with `tape_size = 1024` that is exactly `1024` bytes
and offset `512`. -/
theorem compile_prologue (codes : List Code) (ts : Nat) :
    ((compile codes ts).1.take 7).map Line.render =
      [ "section .bss", "  tape_ptr RESQ 1", s!"  tape RESB {ts}",
        "section .text", "  global _start", "_start:",
        s!"  mov EAX, tape+{ts / 2}" ] ∧
    (compile [] 1024).1.map Line.render =
      [ "section .bss", "  tape_ptr RESQ 1", "  tape RESB 1024",
        "section .text", "  global _start", "_start:", "  mov EAX, tape+512" ] := by
  constructor
  · obtain ⟨t, ht⟩ := run_lines_mono codes (initState ts)
    rw [compile_fst, ht]
    have h7 : (initState ts).lines.length = 7 := rfl
    rw [← h7, List.take_left]
    rfl
  · rfl

/-- Claim C7: the instruction/character mapping is a bijection between the
eight variants and the eight characters: `tryFrom` after `toChar` is the
identity, `toChar` inverts every successful `tryFrom`, and `toChar` is
injective. -/
theorem code_char_roundtrip :
    (∀ code : Code, Code.tryFrom code.toChar = some code) ∧
    (∀ (c : Char) (code : Code), Code.tryFrom c = some code → code.toChar = c) ∧
    (∀ a b : Code, a.toChar = b.toChar → a = b) := by
  have h1 : ∀ code : Code, Code.tryFrom code.toChar = some code := by
    intro code
    cases code <;> rfl
  refine ⟨h1, ?_, ?_⟩
  · intro c code h
    unfold Code.tryFrom at h
    split_ifs at h <;>
      · injection h with h2
        subst h2
        simp_all [Code.toChar]
  · intro a b hab
    have h2 := h1 a
    rw [hab, h1 b] at h2
    injection h2 with h3
    exact h3.symm

theorem code_char_roundtrip_witness :
    Code.MemInc.toChar = '+' ∧ Code.SysRead.toChar = ',' :=
  ⟨code_char_roundtrip.2.1 '+' Code.MemInc (by decide),
   code_char_roundtrip.2.1 ',' Code.SysRead (by decide)⟩

/-- Claim C8: compilation is deterministic — the same instruction sequence
and tape size always give the same result pair and the same rendered text. -/
theorem compile_deterministic (c1 c2 : List Code) (t1 t2 : Nat)
    (hc : c1 = c2) (ht : t1 = t2) :
    compile c1 t1 = compile c2 t2 ∧
    (compile c1 t1).1.map Line.render = (compile c2 t2).1.map Line.render := by
  subst hc
  subst ht
  exact ⟨rfl, rfl⟩

theorem compile_deterministic_witness :
    compile [Code.MemInc] 5 = compile [Code.MemInc] 5 :=
  (compile_deterministic [Code.MemInc] [Code.MemInc] 5 5 rfl rfl).1

/-- Claim C9: `compile` never validates `tape_size`; with `tape_size = 0` any
balanced input still compiles successfully, the reserved tape region is zero
bytes (`tape RESB 0`) and the working register is initialized to offset `0`
(`mov EAX, tape+0`). -/
theorem compile_tape_size_zero (codes : List Code)
    (hbal : opens codes = closes codes)
    (hpre : ∀ n, n ≤ codes.length → closes (codes.take n) ≤ opens (codes.take n)) :
    (compile codes 0).2 = none ∧
    Line.raw "  tape RESB 0" ∈ (compile codes 0).1 ∧
    Line.raw "  mov EAX, tape+0" ∈ (compile codes 0).1 := by
  refine ⟨compile_ok_of_balanced codes 0 hbal hpre, ?_, ?_⟩ <;>
    · obtain ⟨t, ht⟩ := run_lines_mono codes (initState 0)
      rw [compile_fst, ht]
      exact List.mem_append_left _ (by decide)

theorem compile_tape_size_zero_witness :
    (compile [Code.LoopStart, Code.LoopEnd] 0).2 = none ∧
    Line.raw "  tape RESB 0" ∈ (compile [Code.LoopStart, Code.LoopEnd] 0).1 :=
  ⟨(compile_tape_size_zero [Code.LoopStart, Code.LoopEnd] (by decide) (by decide)).1,
   (compile_tape_size_zero [Code.LoopStart, Code.LoopEnd] (by decide) (by decide)).2.1⟩

/-- Claim C10: invariants of a successful compile — no prefix of the input
ever has more loop-ends than loop-starts; a loop-end that would make
`loop_close` exceed `loop_open` aborts at once, emitting nothing for that
instruction and leaving the rest unprocessed; each loop-start bumps
`loop_open` by exactly one; and the emitted label definitions carry exactly
the numbers `1, 2, …, opens codes`, all distinct. -/
theorem compile_invariants (codes : List Code) (ts : Nat)
    (hok : (compile codes ts).2 = none) :
    (∀ n, n ≤ codes.length → closes (codes.take n) ≤ opens (codes.take n)) ∧
    (∀ st : CompState, st.loopOpen < st.loopClose + 1 →
      runCodes (Code.LoopEnd :: codes) st = (st, some underflowMsg)) ∧
    (∀ st st' : CompState, step st Code.LoopStart = Except.ok st' →
      st'.loopOpen = st.loopOpen + 1 ∧ st'.lines = st.lines ++ [.labelDef (st.loopOpen + 1)]) ∧
    labelNums (compile codes ts).1 = List.range' 1 (opens codes) ∧
    (labelNums (compile codes ts).1).Nodup := by
  obtain ⟨st, hrun, hlines, -⟩ := compile_ok_run hok
  have hlab : labelNums (compile codes ts).1 = List.range' 1 (opens codes) := by
    rw [hlines, run_ok_labelNums codes (initState ts) st hrun]
    rfl
  refine ⟨?_, ?_, ?_, hlab, ?_⟩
  · intro n hn
    by_contra hbad
    have herr : (runCodes codes (initState ts)).2 = some underflowMsg := by
      apply run_err_of_take codes (initState ts) (by simp [initState])
      refine ⟨n, hn, ?_⟩
      simp only [initState]
      omega
    rw [hrun] at herr
    simp at herr
  · intro st0 hlt
    simp [runCodes, step, if_pos hlt]
  · intro st0 st1 h
    obtain ⟨ho, -, -, -, -⟩ := step_ok_spec h
    refine ⟨by simpa using ho, ?_⟩
    simp only [step] at h
    cases h
    rfl
  · rw [hlab]
    exact List.nodup_range' _ _

theorem compile_invariants_witness :
    labelNums (compile [Code.LoopStart, Code.LoopStart, Code.MemDec,
                        Code.LoopEnd, Code.LoopEnd] 9).1 = [1, 2] := by
  have h := compile_invariants [Code.LoopStart, Code.LoopStart, Code.MemDec,
                                Code.LoopEnd, Code.LoopEnd] 9 (by decide)
  exact h.2.2.2.1.trans (by decide)

end BfcAsm
